import Mathlib

/-!
Verification of the zerologlintctx marker-propagation tracer.

This file gives a shallow embedding of the SSA-based backward tracing engine
of the repository (package `internal/ssa`: `tracing.go`, `checker.go`, the
`tracer` strategy package and the `typeutil` classifier, plus the
ambient-binding discovery of `internal/analyzer.go`) and proves properties of
the embedded definitions.

The per-procedure SSA value graph is modelled as a finite table of nodes
indexed by `Fin n` (value identity), together with a side table of function
bodies (instruction lists holding `Store`, `MakeClosure` and `Return`
records).  Go maps used as visited sets become `Finset (Fin n)`; the Go code
mutates those maps in place and occasionally clones them, so the embedded
tracing functions thread the visited set explicitly and return it alongside
the boolean, exactly where the source shares one map across successive calls.
-/

namespace ZLC

/-! ## Static types and the role classifier (`internal/typeutil`) -/

/-- Go static types, at the granularity the classifier inspects:
named types (package path + type name), pointers, and everything else. -/
inductive GoType where
  | named (pkgPath : String) (name : String)
  | ptr (elem : GoType)
  | basic
deriving DecidableEq, Repr

/-- Package path of zerolog, `zerologPkgPath` in the source. -/
def zerologPkgPath : String := "github.com/rs/zerolog"

/-- Package path of zerolog/log, `zerologLogPath` in the source. -/
def zerologLogPath : String := "github.com/rs/zerolog/log"

/-- Package path of context, `contextPkgPath` in the source. -/
def contextPkgPath : String := "context"

/-- The marker-setter method name, `CtxMethod` in the source. -/
def CtxMethod : String := "Ctx"

/-- `unwrapPointer`: returns the element type if `t` is a pointer. -/
def unwrapPointer : GoType → GoType
  | .ptr e => e
  | t => t

/-- `isNamedType`: the type matches the given package path and type name,
unwrapping one pointer level. -/
def isNamedType (t : GoType) (pkgPath typeName : String) : Bool :=
  match unwrapPointer t with
  | .named p nm => p == pkgPath && nm == typeName
  | _ => false

/-- `IsEvent`: the type is `*zerolog.Event`. -/
def IsEvent (t : GoType) : Bool := isNamedType t zerologPkgPath "Event"

/-- `IsContext`: the type is `zerolog.Context`. -/
def IsContext (t : GoType) : Bool := isNamedType t zerologPkgPath "Context"

/-- `IsLogger`: the type is `zerolog.Logger`. -/
def IsLogger (t : GoType) : Bool := isNamedType t zerologPkgPath "Logger"

/-- `IsContextType`: the type is `context.Context`. -/
def IsContextType (t : GoType) : Bool := isNamedType t contextPkgPath "Context"

/-! ## The SSA value graph -/

/-- Function identities (`*ssa.Function` values) are plain indices into the
program's function table. -/
abbrev FuncId := Nat

/-- The node kinds of the per-procedure value graph, over a value-identity
space `Fin n`.  A `call` node records the statically resolved callee (none
models unresolved dynamic dispatch), the bindings of the callee value when
that value is a `MakeClosure` (bound method value or IIFE), the receiver
variable's type of the call's signature, and the argument list. -/
inductive Node (n : Nat) where
  | call (callee : Option FuncId) (closureBindings : Option (List (Fin n)))
      (recv : Option GoType) (args : List (Fin n))
  | phi (edges : List (Fin n))
  | unop (isMul : Bool) (x : Fin n)
  | alloc
  | freeVar (fn : FuncId)
  | const (val : Option Int)
  | extract (x : Fin n)
  | makeInterface (x : Fin n)
  | typeAssert (x : Fin n)
  | fieldAddr (x : Fin n) (fld : Nat)
  | fieldOf (x : Fin n)
  | indexAddr (x : Fin n) (idx : Fin n)
  | indexOf (x : Fin n)
  | lookup (x : Fin n)
  | other
deriving DecidableEq

/-- Instructions of a function body that the tracer inspects:
stores, closure creations and returns.  Everything else is `skip`. -/
inductive Instr (n : Nat) where
  | store (addr val : Fin n)
  | makeClosure (fn : FuncId) (bindings : List (Fin n))
  | ret (results : List (Fin n))
  | skip
deriving DecidableEq

/-- An `*ssa.Function`: name, defining package path (none models a nil
package), parameter list (name and type), declared result types, free
variables, lexically enclosing function, and instruction list
(all blocks flattened in order). -/
structure Func (n : Nat) where
  name : String := ""
  pkgPath : Option String := none
  params : List (String × GoType) := []
  results : List GoType := []
  freeVars : List (Fin n) := []
  parent : Option FuncId := none
  instrs : List (Instr n) := []
deriving DecidableEq

/-- The immutable value graph of a program: the node table, each value's
static type, each instruction-value's position and enclosing function, and
the function table. -/
structure Graph (n : Nat) where
  node : Fin n → Node n
  ty : Fin n → GoType := fun _ => GoType.basic
  pos : Fin n → Nat := fun _ => 0
  owner : Fin n → Option FuncId := fun _ => none
  func : FuncId → Func n := fun _ => {}

variable {n : Nat}

/-! ## Classifier predicates over functions (`internal/typeutil`) -/

/-- `IsCtxFunc`: `zerolog.Ctx` or `log.Ctx`, the ambient marker source. -/
def IsCtxFunc (f : Func n) : Bool :=
  f.name == CtxMethod &&
    match f.pkgPath with
    | some p => p == zerologPkgPath || p == zerologLogPath
    | none => false

/-- `returnsSingleType`: the function returns exactly one value matching
the predicate. -/
def returnsSingleType (f : Func n) (predicate : GoType → Bool) : Bool :=
  match f.results with
  | [r] => predicate r
  | _ => false

/-- `ReturnsEvent`: the function returns exactly `*zerolog.Event`. -/
def ReturnsEvent (f : Func n) : Bool := returnsSingleType f IsEvent

/-- `ReturnsLogger`: the function returns exactly `zerolog.Logger`. -/
def ReturnsLogger (f : Func n) : Bool := returnsSingleType f IsLogger

/-- `ReturnsContext`: the function returns exactly `zerolog.Context`. -/
def ReturnsContext (f : Func n) : Bool := returnsSingleType f IsContext

/-- `ReturnsVoid`: the function has no return values. -/
def ReturnsVoid (f : Func n) : Bool := f.results.isEmpty

/-- `IsDirectLoggingMethod`: a void `Print`-prefixed method on a Logger
receiver, bypassing the Event chain. -/
def IsDirectLoggingMethod (f : Func n) (recv : Option GoType) : Bool :=
  (match recv with
   | some t => IsLogger t
   | none => false) &&
  ReturnsVoid f &&
  "Print".data.isPrefixOf f.name.data

/-- `IsDirectLoggingFunc`: a void `Print`-prefixed function defined in the
zerolog/log package, bypassing the Event chain. -/
def IsDirectLoggingFunc (f : Func n) : Bool :=
  (match f.pkgPath with
   | some p => p == zerologLogPath
   | none => false) &&
  ReturnsVoid f &&
  "Print".data.isPrefixOf f.name.data

/-! ## Role tracers (`tracerType`, `checkResult`, `checkContextFor*`) -/

/-- `tracerType`: which zerolog type is currently being traced. -/
inductive TracerType where
  | event
  | logger
  | context
deriving DecidableEq, Repr

/-- `checkResult` / `tracer.Result`: outcome of checking a call for context —
found, delegate to another tracer on another value, or continue with the
current tracer on the receiver. -/
inductive CheckResult (n : Nat) where
  | found
  | delegate (dst : TracerType) (val : Fin n)
  | cont
deriving DecidableEq

/-- `checkContextForEvent` (= `EventTracer.CheckContext`): context checks
while tracing a `*zerolog.Event` value. -/
def checkContextForEvent (args : List (Fin n))
    (callee : Func n) (recv : Option GoType) : CheckResult n :=
  if callee.name == CtxMethod &&
      (match recv with
       | some t => IsEvent t || IsContext t
       | none => false) then
    .found
  else if IsCtxFunc callee then
    .found
  else if (match recv with
           | some t => IsLogger t
           | none => false) && ReturnsEvent callee then
    match args with
    | a :: _ => .delegate .logger a
    | [] => .cont
  else if (match recv with
           | some t => IsContext t
           | none => false) && ReturnsLogger callee then
    match args with
    | a :: _ => .delegate .context a
    | [] => .cont
  else
    .cont

/-- `checkContextForLogger` (= `LoggerTracer.CheckContext`): context checks
while tracing a `zerolog.Logger` value. -/
def checkContextForLogger (args : List (Fin n))
    (callee : Func n) (recv : Option GoType) : CheckResult n :=
  if IsCtxFunc callee then
    .found
  else if (match recv with
           | some t => IsContext t
           | none => false) && ReturnsLogger callee then
    match args with
    | a :: _ => .delegate .context a
    | [] => .cont
  else if (match recv with
           | some t => IsLogger t
           | none => false) && ReturnsContext callee then
    match args with
    | a :: _ => .delegate .logger a
    | [] => .cont
  else
    .cont

/-- `checkContextForContext` (= `ContextTracer.CheckContext`): context checks
while tracing a `zerolog.Context` value. -/
def checkContextForContext (args : List (Fin n))
    (callee : Func n) (recv : Option GoType) : CheckResult n :=
  if callee.name == CtxMethod &&
      (match recv with
       | some t => IsContext t
       | none => false) then
    .found
  else if (match recv with
           | some t => IsLogger t
           | none => false) && ReturnsContext callee then
    match args with
    | a :: _ => .delegate .logger a
    | [] => .cont
  else
    .cont

/-- `checkContext`: dispatch to the active tracer's context check. -/
def checkContext (args : List (Fin n)) (callee : Func n)
    (recv : Option GoType) : TracerType → CheckResult n
  | .event => checkContextForEvent args callee recv
  | .logger => checkContextForLogger args callee recv
  | .context => checkContextForContext args callee recv

/-- `shouldContinueOnReceiver` (= `ContinueOnReceiverType`): continue tracing
through the receiver exactly when its type matches the active tracer. -/
def shouldContinueOnReceiver (recv : Option GoType) : TracerType → Bool
  | .event => match recv with
              | some t => IsEvent t
              | none => false
  | .logger => match recv with
               | some t => IsLogger t
               | none => false
  | .context => match recv with
                | some t => IsContext t
                | none => false

/-! ## Pure graph helpers -/

/-- `unwrapInner`: the inner value of semantically transparent wrapper
nodes, or none. -/
def unwrapInner (g : Graph n) (v : Fin n) : Option (Fin n) :=
  match g.node v with
  | .extract x => some x
  | .makeInterface x => some x
  | .typeAssert x => some x
  | .fieldAddr x _ => some x
  | .fieldOf x => some x
  | .indexAddr x _ => some x
  | .indexOf x => some x
  | .lookup x => some x
  | _ => none

/-- `isNilConst`: the value is a constant whose `Value` is nil. -/
def isNilConst (g : Graph n) (v : Fin n) : Bool :=
  match g.node v with
  | .const none => true
  | _ => false

/-- `addressesMatch`: two addresses refer to the same memory location —
identical values, `FieldAddr` on the same base and field, or `IndexAddr` on
the same base with equal constant indices. -/
def addressesMatch (g : Graph n) (a b : Fin n) : Bool :=
  if a = b then true
  else
    match g.node a, g.node b with
    | .fieldAddr x1 f1, .fieldAddr x2 f2 => x1 == x2 && f1 == f2
    | .indexAddr x1 i1, .indexAddr x2 i2 =>
      x1 == x2 &&
        (match g.node i1, g.node i2 with
         | .const v1, .const v2 => v1 == v2
         | _, _ => false)
    | _, _ => false

/-- Whether a node kind is an `ssa.Instruction` (and hence has an enclosing
function); constants, free variables, parameters and globals are not. -/
def isInstructionNode : Node n → Bool
  | .const _ => false
  | .freeVar _ => false
  | .other => false
  | _ => true

/-- The enclosing function of an address value, as computed by the `switch`
at the top of `findAllStoredValues` (explicit cases for `FieldAddr`,
`IndexAddr` and `Alloc`, default case for any other instruction). -/
def parentOfValue (g : Graph n) (v : Fin n) : Option FuncId :=
  if isInstructionNode (g.node v) then g.owner v else none

/-- The unvisited-node count drops when a fresh node is inserted into a
visited set; the measure behind every traversal in this file. -/
theorem sdiff_card_insert_lt (v : Fin n) (seen : Finset (Fin n))
    (hv : v ∉ seen) :
    (Finset.univ \ insert v seen).card < (Finset.univ \ seen).card := by
  rw [Finset.sdiff_insert]
  apply Finset.card_erase_lt_of_mem
  simp only [Finset.mem_sdiff, Finset.mem_univ, true_and]
  exact hv

mutual

/-- `valueLoadsFrom`: the value (or its receiver chain) loads from the given
address; detects self-referential stores like `*ptr = (*ptr).Str(...)`.
The `seen` set is a termination guard only: the source recursion carries no
visited set and does not terminate on value graphs that revisit a node. -/
def valueLoadsFrom (g : Graph n) (v : Fin n) (addr : Fin n)
    (seen : Finset (Fin n)) : Bool :=
  if v ∈ seen then false
  else
    match g.node v with
    | .unop isMul x =>
      (isMul && addressesMatch g x addr) || valueLoadsFrom g x addr (insert v seen)
    | .call _ _ _ args =>
      match args with
      | a :: _ => valueLoadsFrom g a addr (insert v seen)
      | [] => false
    | .phi edges => valueLoadsFromList g edges addr (insert v seen)
    | _ => false
termination_by ((Finset.univ \ seen).card, 0, 0)
decreasing_by
  all_goals
    exact Prod.Lex.left _ _ (sdiff_card_insert_lt _ _ (by assumption))

/-- Worker for the `Phi` case of `valueLoadsFrom`: any edge loads from the
address. -/
def valueLoadsFromList (g : Graph n) (edges : List (Fin n)) (addr : Fin n)
    (seen : Finset (Fin n)) : Bool :=
  match edges with
  | [] => false
  | e :: rest =>
    valueLoadsFrom g e addr seen || valueLoadsFromList g rest addr seen
termination_by ((Finset.univ \ seen).card, 1, edges.length)
decreasing_by
  · exact Prod.Lex.right _ (Prod.Lex.left _ _ (by omega))
  · exact Prod.Lex.right _ (Prod.Lex.right _ (by simp))

end

/-- `findAllStoredValues`: every value stored at an address structurally
matching `addr` anywhere in the owning function, excluding self-referential
stores. -/
def findAllStoredValues (g : Graph n) (addr : Fin n) : List (Fin n) :=
  match parentOfValue g addr with
  | none => []
  | some fId =>
    (g.func fId).instrs.filterMap fun i =>
      match i with
      | .store a v =>
        if addressesMatch g a addr && !valueLoadsFrom g v addr ∅ then some v
        else none
      | _ => none

/-! ## Loop back-edge detection (`edgeLeadsTo`) -/

mutual

/-- `edgeLeadsToImpl`: tracing this value would eventually lead back to
`target`, following first call arguments, phi edges and transparent
wrappers.  The `seen` set is shared (threaded) across phi edges, as the Go
map is. -/
def edgeLeadsToImpl (g : Graph n) (v target : Fin n)
    (seen : Finset (Fin n)) : Bool × Finset (Fin n) :=
  if v = target then (true, seen)
  else if _h : v ∈ seen then (false, seen)
  else
    match g.node v with
    | .call _ _ _ args =>
      match args with
      | a :: _ => edgeLeadsToImpl g a target (insert v seen)
      | [] => (false, insert v seen)
    | .phi edges => edgeLeadsToLoop g edges target (insert v seen)
    | _ =>
      match unwrapInner g v with
      | some inner => edgeLeadsToImpl g inner target (insert v seen)
      | none => (false, insert v seen)
termination_by ((Finset.univ \ seen).card, 0, 0)
decreasing_by
  all_goals
    exact Prod.Lex.left _ _ (sdiff_card_insert_lt _ _ (by assumption))

/-- Worker for the `Phi` case of `edgeLeadsToImpl`: some edge leads back to
`target`; the seen set accumulates across edges. -/
def edgeLeadsToLoop (g : Graph n) (edges : List (Fin n)) (target : Fin n)
    (seen : Finset (Fin n)) : Bool × Finset (Fin n) :=
  match edges with
  | [] => (false, seen)
  | e :: rest =>
    match edgeLeadsToImpl g e target seen with
    | (true, s) => (true, s)
    | (false, s) => edgeLeadsToLoop g rest target (seen ∪ s)
termination_by ((Finset.univ \ seen).card, 1, edges.length)
decreasing_by
  · exact Prod.Lex.right _ (Prod.Lex.left _ _ (by omega))
  · have hle : (Finset.univ \ (seen ∪ s)).card ≤ (Finset.univ \ seen).card :=
      Finset.card_le_card
        (Finset.sdiff_subset_sdiff (le_refl _) Finset.subset_union_left)
    rcases lt_or_eq_of_le hle with hlt | heq
    · exact Prod.Lex.left _ _ hlt
    · rw [heq]
      exact Prod.Lex.right _ (Prod.Lex.right _ (by simp))

end

/-- `edgeLeadsTo`: tracing this edge would eventually lead back to `target`
(the seen set starts as a clone of the current visited set). -/
def edgeLeadsTo (g : Graph n) (edge target : Fin n)
    (visited : Finset (Fin n)) : Bool :=
  (edgeLeadsToImpl g edge target visited).1

/-! ## The backward value-resolution engine (`traceValue` and helpers) -/

/-- The bindings lists of every `MakeClosure` in `f` that instantiates the
function `fnId` (the scan inside `traceFreeVar`). -/
def makeClosuresOf (f : Func n) (fnId : FuncId) : List (List (Fin n)) :=
  f.instrs.filterMap fun i =>
    match i with
    | .makeClosure fn bs => if fn = fnId then some bs else none
    | _ => none

/-- The results lists of every `Return` instruction in `f` (the scan inside
`traceIIFEReturns`). -/
def returnsOf (f : Func n) : List (List (Fin n)) :=
  f.instrs.filterMap fun i =>
    match i with
    | .ret rs => some rs
    | _ => none

mutual

/-- `traceValue`: trace an SSA value backwards to find whether context was
set.  Returns the boolean answer together with the final visited set (the
Go function mutates the caller's map in place). -/
def traceValue (g : Graph n) (v : Fin n) (t : TracerType)
    (visited : Finset (Fin n)) : Bool × Finset (Fin n) :=
  if _h : v ∈ visited then (false, visited)
  else
    let w := insert v visited
    match g.node v with
    | .call callee closureBindings recv args =>
      match callee with
      | none => traceReceiver g args t w
      | some fId =>
        if closureBindings.isSome && traceIIFEReturns g fId t w then (true, w)
        else
          match checkContext args (g.func fId) recv t with
          | .found => (true, w)
          | .delegate dst dv => traceValue g dv dst w
          | .cont =>
            if shouldContinueOnReceiver recv t then traceReceiver g args t w
            else (false, w)
    | _ => traceCommon g v t w
termination_by ((Finset.univ \ visited).card, 0, 0)
decreasing_by
  all_goals
    exact Prod.Lex.left _ _ (sdiff_card_insert_lt _ _ (by assumption))

/-- `traceCommon`: dispatch for non-call node kinds — `Phi`, `UnOp`,
`Alloc` and `FreeVar` get custom handling, transparent wrappers are
unwrapped, anything else fails closed. -/
def traceCommon (g : Graph n) (v : Fin n) (t : TracerType)
    (visited : Finset (Fin n)) : Bool × Finset (Fin n) :=
  match g.node v with
  | .phi edges => (tracePhi g v edges t visited, visited)
  | .unop isMul x => traceUnOp g isMul x t visited
  | .alloc => (traceAlloc g v t visited, visited)
  | .freeVar fnId => traceFreeVar g v fnId t visited
  | _ =>
    match unwrapInner g v with
    | some inner => traceValue g inner t visited
    | none => (false, visited)
termination_by ((Finset.univ \ visited).card, 3, 0)
decreasing_by
  all_goals
    exact Prod.Lex.right _ (Prod.Lex.left _ _ (by omega))

/-- `tracePhi`: all non-cyclic, non-nil edges of a phi node must have
context, each explored on its own clone of the visited set; a phi with no
edges, or none eligible, fails. -/
def tracePhi (g : Graph n) (phi : Fin n) (edges : List (Fin n))
    (t : TracerType) (visited : Finset (Fin n)) : Bool :=
  if edges.isEmpty then false
  else tracePhiLoop g phi edges false t visited
termination_by ((Finset.univ \ visited).card, 2, 0)
decreasing_by
  · exact Prod.Lex.right _ (Prod.Lex.left _ _ (by omega))

/-- Worker for `tracePhi`: iterate the edges, skipping back-edges and nil
constants, tracking whether a valid edge was met. -/
def tracePhiLoop (g : Graph n) (phi : Fin n) (edges : List (Fin n))
    (hasValidEdge : Bool) (t : TracerType)
    (visited : Finset (Fin n)) : Bool :=
  match edges with
  | [] => hasValidEdge
  | e :: rest =>
    if edgeLeadsTo g e phi visited then
      tracePhiLoop g phi rest hasValidEdge t visited
    else if isNilConst g e then
      tracePhiLoop g phi rest hasValidEdge t visited
    else if (traceValue g e t visited).1 then
      tracePhiLoop g phi rest true t visited
    else false
termination_by ((Finset.univ \ visited).card, 1, edges.length)
decreasing_by
  · exact Prod.Lex.right _ (Prod.Lex.right _ (by simp))
  · exact Prod.Lex.right _ (Prod.Lex.right _ (by simp))
  · exact Prod.Lex.right _ (Prod.Lex.left _ _ (by omega))
  · exact Prod.Lex.right _ (Prod.Lex.right _ (by simp))

/-- `traceUnOp`: for a pointer dereference with at least one matching
store, all stored values must have context; otherwise fall back to the
operand. -/
def traceUnOp (g : Graph n) (isMul : Bool) (x : Fin n) (t : TracerType)
    (visited : Finset (Fin n)) : Bool × Finset (Fin n) :=
  if isMul && !(findAllStoredValues g x).isEmpty then
    (traceAllStoredValues g (findAllStoredValues g x) t visited, visited)
  else traceValue g x t visited
termination_by ((Finset.univ \ visited).card, 2, 0)
decreasing_by
  · exact Prod.Lex.right _ (Prod.Lex.left _ _ (by omega))
  · exact Prod.Lex.right _ (Prod.Lex.left _ _ (by omega))

/-- `traceAlloc`: a local allocation resolves through the values stored
into it; with no stores it fails. -/
def traceAlloc (g : Graph n) (v : Fin n) (t : TracerType)
    (visited : Finset (Fin n)) : Bool :=
  if !(findAllStoredValues g v).isEmpty then
    traceAllStoredValues g (findAllStoredValues g v) t visited
  else false
termination_by ((Finset.univ \ visited).card, 2, 0)
decreasing_by
  · exact Prod.Lex.right _ (Prod.Lex.left _ _ (by omega))

/-- `traceAllStoredValues`: every stored value must have context, each
explored on its own clone of the visited set. -/
def traceAllStoredValues (g : Graph n) (vals : List (Fin n))
    (t : TracerType) (visited : Finset (Fin n)) : Bool :=
  match vals with
  | [] => true
  | s :: rest =>
    if (traceValue g s t visited).1 then
      traceAllStoredValues g rest t visited
    else false
termination_by ((Finset.univ \ visited).card, 1, vals.length)
decreasing_by
  · exact Prod.Lex.right _ (Prod.Lex.left _ _ (by omega))
  · exact Prod.Lex.right _ (Prod.Lex.right _ (by simp))

/-- `traceFreeVar`: locate the free variable's index in its function, then
scan the enclosing function for `MakeClosure` instructions instantiating
that function and trace the value bound at that index. -/
def traceFreeVar (g : Graph n) (v : Fin n) (fnId : FuncId) (t : TracerType)
    (visited : Finset (Fin n)) : Bool × Finset (Fin n) :=
  let fn := g.func fnId
  let idx := fn.freeVars.findIdx fun fv => decide (fv = v)
  if idx < fn.freeVars.length then
    match fn.parent with
    | none => (false, visited)
    | some p => traceFreeVarLoop g (makeClosuresOf (g.func p) fnId) idx t visited
  else (false, visited)
termination_by ((Finset.univ \ visited).card, 2, 0)
decreasing_by
  · exact Prod.Lex.right _ (Prod.Lex.left _ _ (by omega))

/-- Worker for `traceFreeVar`: succeed on the first closure-creation site
whose binding at `idx` traces true; the visited set is shared (threaded)
across sites, as the Go map is. -/
def traceFreeVarLoop (g : Graph n) (mcs : List (List (Fin n))) (idx : Nat)
    (t : TracerType) (visited : Finset (Fin n)) : Bool × Finset (Fin n) :=
  match mcs with
  | [] => (false, visited)
  | bs :: rest =>
    if h : idx < bs.length then
      match traceValue g bs[idx] t visited with
      | (true, s) => (true, s)
      | (false, s) => traceFreeVarLoop g rest idx t (visited ∪ s)
    else traceFreeVarLoop g rest idx t visited
termination_by ((Finset.univ \ visited).card, 1, mcs.length)
decreasing_by
  · exact Prod.Lex.right _ (Prod.Lex.left _ _ (by omega))
  · have hle : (Finset.univ \ (visited ∪ s)).card ≤
        (Finset.univ \ visited).card :=
      Finset.card_le_card
        (Finset.sdiff_subset_sdiff (le_refl _) Finset.subset_union_left)
    rcases lt_or_eq_of_le hle with hlt | heq
    · exact Prod.Lex.left _ _ hlt
    · rw [heq]
      exact Prod.Lex.right _ (Prod.Lex.right _ (by simp))
  · exact Prod.Lex.right _ (Prod.Lex.right _ (by simp))

/-- `traceReceiver`: trace the receiver (the first argument) of a call. -/
def traceReceiver (g : Graph n) (args : List (Fin n)) (t : TracerType)
    (visited : Finset (Fin n)) : Bool × Finset (Fin n) :=
  match args with
  | a :: _ => traceValue g a t visited
  | [] => (false, visited)
termination_by ((Finset.univ \ visited).card, 1, 0)
decreasing_by
  · exact Prod.Lex.right _ (Prod.Lex.left _ _ (by omega))

/-- `traceIIFEReturns`: an immediately-invoked closure whose first declared
result is a zerolog role type succeeds when it has at least one
result-bearing return and every such return's first result traces true,
each on its own clone of the visited set. -/
def traceIIFEReturns (g : Graph n) (fnId : FuncId) (t : TracerType)
    (visited : Finset (Fin n)) : Bool :=
  let f := g.func fnId
  match f.results with
  | [] => false
  | r0 :: _ =>
    if IsEvent r0 || IsLogger r0 || IsContext r0 then
      traceIIFELoop g (returnsOf f) false t visited
    else false
termination_by ((Finset.univ \ visited).card, 2, 0)
decreasing_by
  · exact Prod.Lex.right _ (Prod.Lex.left _ _ (by omega))

/-- Worker for `traceIIFEReturns`: iterate the returns, skipping
result-less ones, tracking whether a result-bearing return was met. -/
def traceIIFELoop (g : Graph n) (rets : List (List (Fin n)))
    (hasReturn : Bool) (t : TracerType)
    (visited : Finset (Fin n)) : Bool :=
  match rets with
  | [] => hasReturn
  | [] :: rest => traceIIFELoop g rest hasReturn t visited
  | (r0 :: _) :: rest =>
    if (traceValue g r0 t visited).1 then
      traceIIFELoop g rest true t visited
    else false
termination_by ((Finset.univ \ visited).card, 1, rets.length)
decreasing_by
  · exact Prod.Lex.right _ (Prod.Lex.right _ (by simp))
  · exact Prod.Lex.right _ (Prod.Lex.left _ _ (by omega))
  · exact Prod.Lex.right _ (Prod.Lex.right _ (by simp))

end

/-! ## The terminal-call driver (`internal/ssa/checker.go`) -/

/-- Diagnostic kinds the checker can emit. -/
inductive DiagKind where
  | missingCtx
  | directLogging
deriving DecidableEq, Repr

/-- A reported diagnostic: source position and kind. -/
structure Diag where
  pos : Nat
  kind : DiagKind
deriving DecidableEq, Repr

/-- The checker's configuration: context variable name for messages, the
line-level ignore directives (none models a nil ignore map) and the
position-to-line mapping of the file set. -/
structure CheckerCfg where
  ctxName : String := "ctx"
  ignoreMap : Option (Nat → Bool) := none
  posLine : Nat → Nat := fun p => p

/-- The ignore-map consultation `c.ignoreMap != nil && c.ignoreMap.ShouldIgnore(line)`. -/
def shouldIgnoreLine (cfg : CheckerCfg) (line : Nat) : Bool :=
  match cfg.ignoreMap with
  | some m => m line
  | none => false

/-- `report`: emit a missing-context diagnostic unless the position was
already reported or the line is suppressed; returns the emitted diagnostic
(if any) and the updated dedup set. -/
def report (cfg : CheckerCfg) (reported : Finset Nat) (pos : Nat) :
    Option Diag × Finset Nat :=
  if pos ∈ reported then (none, reported)
  else
    let rep := insert pos reported
    if shouldIgnoreLine cfg (cfg.posLine pos) then (none, rep)
    else (some ⟨pos, .missingCtx⟩, rep)

/-- `reportDirectLogging`: emit a direct-logging diagnostic unless the
position was already reported or the line is suppressed. -/
def reportDirectLogging (cfg : CheckerCfg) (reported : Finset Nat)
    (pos : Nat) : Option Diag × Finset Nat :=
  if pos ∈ reported then (none, reported)
  else
    let rep := insert pos reported
    if shouldIgnoreLine cfg (cfg.posLine pos) then (none, rep)
    else (some ⟨pos, .directLogging⟩, rep)

/-- `eventChainHasCtx`: trace an Event value with a fresh registry and a
fresh visited set. -/
def eventChainHasCtx (g : Graph n) (v : Fin n) : Bool :=
  (traceValue g v .event ∅).1

/-- `checkBoundMethodTerminator`: a bound method value call (`msg := e.Msg;
msg("text")`) is a reportable terminator when the callee returns void, the
closure has a first binding of type `*zerolog.Event`, and tracing that
binding finds no context. -/
def checkBoundMethodTerminator (g : Graph n) (cfg : CheckerCfg)
    (reported : Finset Nat) (v : Fin n) (bindings : List (Fin n))
    (callee : Func n) : Option Diag × Finset Nat :=
  if !ReturnsVoid callee then (none, reported)
  else
    match bindings with
    | [] => (none, reported)
    | b0 :: _ =>
      if !IsEvent (g.ty b0) then (none, reported)
      else if eventChainHasCtx g b0 then (none, reported)
      else report cfg reported (g.pos v)

/-- `checkTerminatorCall`: a terminator call (`Msg`, `Send`, …) must have
context set in its chain; bound method values are handled by
`checkBoundMethodTerminator`. -/
def checkTerminatorCall (g : Graph n) (cfg : CheckerCfg)
    (reported : Finset Nat) (v : Fin n) : Option Diag × Finset Nat :=
  match g.node v with
  | .call callee closureBindings recv args =>
    match callee with
    | none => (none, reported)
    | some fId =>
      match closureBindings with
      | some bs => checkBoundMethodTerminator g cfg reported v bs (g.func fId)
      | none =>
        match recv with
        | none => (none, reported)
        | some rt =>
          if !IsEvent rt || !ReturnsVoid (g.func fId) then (none, reported)
          else
            match args with
            | a :: _ =>
              if eventChainHasCtx g a then (none, reported)
              else report cfg reported (g.pos v)
            | [] => report cfg reported (g.pos v)
  | _ => (none, reported)

/-- `checkDirectLoggingCall`: a call to a direct logging method or function
is always reported, without consulting the tracing engine. -/
def checkDirectLoggingCall (g : Graph n) (cfg : CheckerCfg)
    (reported : Finset Nat) (v : Fin n) : Option Diag × Finset Nat :=
  match g.node v with
  | .call callee _ recv _ =>
    match callee with
    | none => (none, reported)
    | some fId =>
      if IsDirectLoggingMethod (g.func fId) recv then
        reportDirectLogging cfg reported (g.pos v)
      else if IsDirectLoggingFunc (g.func fId) then
        reportDirectLogging cfg reported (g.pos v)
      else (none, reported)
  | _ => (none, reported)

/-! ## Ambient-binding discovery (`internal/analyzer.go`) -/

/-- `findContextInParams`: the first `context.Context`-typed parameter of a
function, as a context-info name. -/
def findContextInParams (f : Func n) (isCtx : GoType → Bool) :
    Option String :=
  f.params.findSome? fun p => if isCtx p.2 then some p.1 else none

/-- First pass of `buildFunctionContextMap`: record every source function's
direct context parameter. -/
def directPass (g : Graph n) (isCtx : GoType → Bool) (fns : List FuncId)
    (m : FuncId → Option String) : FuncId → Option String :=
  match fns with
  | [] => m
  | f :: rest =>
    match findContextInParams (g.func f) isCtx with
    | some nm => directPass g isCtx rest fun x => if x = f then some nm else m x
    | none => directPass g isCtx rest m

/-- One sweep of the second pass of `buildFunctionContextMap`: each source
function not yet bound inherits its parent's binding when the parent is
bound; the flag records whether anything changed. -/
def propagatePass (g : Graph n) (fns : List FuncId)
    (m : FuncId → Option String) (changed : Bool) :
    (FuncId → Option String) × Bool :=
  match fns with
  | [] => (m, changed)
  | f :: rest =>
    match m f with
    | some _ => propagatePass g rest m changed
    | none =>
      match (g.func f).parent with
      | none => propagatePass g rest m changed
      | some p =>
        match m p with
        | some info =>
          propagatePass g rest (fun x => if x = f then some info else m x) true
        | none => propagatePass g rest m changed

/-- The number of source functions a binding map leaves unbound; the
measure of the fixed-point iteration. -/
def unboundCount (fns : List FuncId) (m : FuncId → Option String) : Nat :=
  (fns.filter fun f => (m f).isNone).length

/-- A list filter over a weaker predicate is no longer. -/
theorem length_filter_mono {α : Type} (l : List α) (p q : α → Bool)
    (h : ∀ a, p a = true → q a = true) :
    (l.filter p).length ≤ (l.filter q).length := by
  induction l with
  | nil => simp
  | cons a l ih =>
    by_cases hp : p a = true
    · rw [List.filter_cons_of_pos hp, List.filter_cons_of_pos (h a hp)]
      simpa using ih
    · rw [List.filter_cons_of_neg (by simpa using hp)]
      by_cases hq : q a = true
      · rw [List.filter_cons_of_pos hq]
        exact le_trans ih (Nat.le_succ _)
      · rw [List.filter_cons_of_neg (by simpa using hq)]
        exact ih

/-- A list filter over a strictly weaker predicate (witnessed by a member)
is strictly shorter. -/
theorem length_filter_strict {α : Type} (l : List α) (p q : α → Bool)
    (h : ∀ a, p a = true → q a = true) (a0 : α) (ha0 : a0 ∈ l)
    (hq : q a0 = true) (hp : p a0 = false) :
    (l.filter p).length < (l.filter q).length := by
  induction l with
  | nil => simp at ha0
  | cons a l ih =>
    rcases List.mem_cons.mp ha0 with rfl | hmem
    · rw [List.filter_cons_of_neg (by simp [hp]), List.filter_cons_of_pos hq]
      exact Nat.lt_succ_of_le (length_filter_mono l p q h)
    · by_cases hpa : p a = true
      · rw [List.filter_cons_of_pos hpa, List.filter_cons_of_pos (h a hpa)]
        simpa using ih hmem
      · rw [List.filter_cons_of_neg (by simpa using hpa)]
        by_cases hqa : q a = true
        · rw [List.filter_cons_of_pos hqa]
          exact Nat.lt_succ_of_le (le_of_lt (ih hmem))
        · rw [List.filter_cons_of_neg (by simpa using hqa)]
          exact ih hmem

/-- Entries of the binding map are never overwritten by a propagation
sweep. -/
theorem propagatePass_mono (g : Graph n) (l : List FuncId) :
    ∀ (m : FuncId → Option String) (c : Bool) (x : FuncId) (s : String),
      m x = some s → (propagatePass g l m c).1 x = some s := by
  induction l with
  | nil => intro m c x s hx; simpa [propagatePass] using hx
  | cons f rest ih =>
    intro m c x s hx
    cases hmf : m f with
    | some v =>
      simp only [propagatePass, hmf]
      exact ih m c x s hx
    | none =>
      cases hpar : (g.func f).parent with
      | none =>
        simp only [propagatePass, hmf, hpar]
        exact ih m c x s hx
      | some p =>
        cases hmp : m p with
        | none =>
          simp only [propagatePass, hmf, hpar, hmp]
          exact ih m c x s hx
        | some info =>
          simp only [propagatePass, hmf, hpar, hmp]
          apply ih _ true x s
          have hxf : x ≠ f := fun he => by rw [he, hmf] at hx; cases hx
          simp [hxf, hx]

/-- A propagation sweep never increases the unbound count, and a sweep that
sets the changed flag from false strictly decreases it. -/
theorem propagatePass_count (g : Graph n) (fns : List FuncId)
    (l : List FuncId) :
    ∀ (m : FuncId → Option String) (c : Bool),
      (∀ x ∈ l, x ∈ fns) →
      unboundCount fns (propagatePass g l m c).1 ≤ unboundCount fns m ∧
        ((propagatePass g l m c).2 = true → c = true ∨
          unboundCount fns (propagatePass g l m c).1 < unboundCount fns m) := by
  induction l with
  | nil =>
    intro m c _
    refine ⟨le_refl _, fun h => Or.inl ?_⟩
    simpa [propagatePass] using h
  | cons f rest ih =>
    intro m c hl
    have hrest : ∀ x ∈ rest, x ∈ fns := fun x hx => hl x (List.mem_cons_of_mem _ hx)
    cases hmf : m f with
    | some v =>
      simp only [propagatePass, hmf]
      exact ih m c hrest
    | none =>
      cases hpar : (g.func f).parent with
      | none =>
        simp only [propagatePass, hmf, hpar]
        exact ih m c hrest
      | some p =>
        cases hmp : m p with
        | none =>
          simp only [propagatePass, hmf, hpar, hmp]
          exact ih m c hrest
        | some info =>
          simp only [propagatePass, hmf, hpar, hmp]
          set m' : FuncId → Option String :=
            fun x => if x = f then some info else m x with hm'
          have hlt : unboundCount fns m' < unboundCount fns m := by
            apply length_filter_strict
            · intro a ha
              by_cases haf : a = f
              · rw [haf] at ha
                simp [hm'] at ha
              · simpa [hm', haf] using ha
            · exact hl f (List.mem_cons_self _ _)
            · simp [hmf]
            · simp [hm']
          have := ih m' true hrest
          exact ⟨le_trans this.1 (le_of_lt hlt), fun _ =>
            Or.inr (lt_of_le_of_lt this.1 hlt)⟩

/-- The second pass of `buildFunctionContextMap`: sweep until nothing
changes. -/
def propagateLoop (g : Graph n) (fns : List FuncId)
    (m : FuncId → Option String) : FuncId → Option String :=
  let r := propagatePass g fns m false
  if hr : r.2 = true then propagateLoop g fns r.1 else r.1
termination_by unboundCount fns m
decreasing_by
  rcases (propagatePass_count g fns fns m false (fun x hx => hx)).2 hr with hc | hlt
  · cases hc
  · exact hlt

/-- `buildFunctionContextMap`: direct-parameter scan, then parent-to-child
propagation iterated to a fixed point. -/
def buildFunctionContextMap (g : Graph n) (isCtx : GoType → Bool)
    (srcFuncs : List FuncId) : FuncId → Option String :=
  propagateLoop g srcFuncs (directPass g isCtx srcFuncs fun _ => none)

/-- Modelled from the spec: the ambient binding a function should end up
with — its own first context parameter, or, failing that, the binding of
its nearest enclosing bound function.  (Recursion is guarded by the
parent-ordering of well-formed programs; a parent index not smaller than
the child is treated as absent.) -/
def nearestCtxBinding (g : Graph n) (isCtx : GoType → Bool)
    (f : FuncId) : Option String :=
  match findContextInParams (g.func f) isCtx with
  | some nm => some nm
  | none =>
    match (g.func f).parent with
    | some p => if hp : p < f then nearestCtxBinding g isCtx p else none
    | none => none
termination_by f

/-! ## Unfolding lemmas for the engine -/

theorem traceValue_visited (g : Graph n) (v : Fin n) (t : TracerType)
    (vis : Finset (Fin n)) (h : v ∈ vis) :
    traceValue g v t vis = (false, vis) := by
  rw [traceValue, dif_pos h]

theorem traceValue_phi (g : Graph n) (v : Fin n) (edges : List (Fin n))
    (t : TracerType) (vis : Finset (Fin n)) (hnv : v ∉ vis)
    (hnode : g.node v = .phi edges) :
    traceValue g v t vis =
      (tracePhi g v edges t (insert v vis), insert v vis) := by
  rw [traceValue, dif_neg hnv]
  simp only [hnode]
  rw [traceCommon]
  simp only [hnode]

theorem traceValue_unop (g : Graph n) (v x : Fin n) (isMul : Bool)
    (t : TracerType) (vis : Finset (Fin n)) (hnv : v ∉ vis)
    (hnode : g.node v = .unop isMul x) :
    traceValue g v t vis = traceUnOp g isMul x t (insert v vis) := by
  rw [traceValue, dif_neg hnv]
  simp only [hnode]
  rw [traceCommon]
  simp only [hnode]

theorem traceValue_alloc (g : Graph n) (v : Fin n)
    (t : TracerType) (vis : Finset (Fin n)) (hnv : v ∉ vis)
    (hnode : g.node v = .alloc) :
    traceValue g v t vis = (traceAlloc g v t (insert v vis), insert v vis) := by
  rw [traceValue, dif_neg hnv]
  simp only [hnode]
  rw [traceCommon]
  simp only [hnode]

theorem traceValue_freeVar (g : Graph n) (v : Fin n) (fnId : FuncId)
    (t : TracerType) (vis : Finset (Fin n)) (hnv : v ∉ vis)
    (hnode : g.node v = .freeVar fnId) :
    traceValue g v t vis = traceFreeVar g v fnId t (insert v vis) := by
  rw [traceValue, dif_neg hnv]
  simp only [hnode]
  rw [traceCommon]
  simp only [hnode]

theorem traceValue_call (g : Graph n) (v : Fin n) (callee : Option FuncId)
    (cb : Option (List (Fin n))) (recv : Option GoType)
    (args : List (Fin n)) (t : TracerType) (vis : Finset (Fin n))
    (hnv : v ∉ vis) (hnode : g.node v = .call callee cb recv args) :
    traceValue g v t vis =
      (match callee with
       | none => traceReceiver g args t (insert v vis)
       | some fId =>
         if cb.isSome && traceIIFEReturns g fId t (insert v vis) then
           (true, insert v vis)
         else
           match checkContext args (g.func fId) recv t with
           | .found => (true, insert v vis)
           | .delegate dst dv => traceValue g dv dst (insert v vis)
           | .cont =>
             if shouldContinueOnReceiver recv t then
               traceReceiver g args t (insert v vis)
             else (false, insert v vis)) := by
  rw [traceValue, dif_neg hnv]
  simp only [hnode]
  cases callee <;> rfl

theorem traceValue_fails_closed (g : Graph n) (v : Fin n) (t : TracerType)
    (vis : Finset (Fin n))
    (h : g.node v = .other ∨ ∃ c, g.node v = .const c) :
    (traceValue g v t vis).1 = false := by
  by_cases hv : v ∈ vis
  · rw [traceValue_visited g v t vis hv]
  · rw [traceValue, dif_neg hv]
    rcases h with hn | ⟨c, hn⟩ <;>
      · simp only [hn]
        rw [traceCommon]
        simp [hn, unwrapInner]

theorem traceAllStoredValues_all (g : Graph n) (vals : List (Fin n))
    (t : TracerType) (w : Finset (Fin n)) :
    traceAllStoredValues g vals t w =
      vals.all fun s => (traceValue g s t w).1 := by
  induction vals with
  | nil => rw [traceAllStoredValues]; rfl
  | cons s rest ih =>
    rw [traceAllStoredValues]
    by_cases ht : (traceValue g s t w).1 = true
    · simp [ht, ih]
    · simp [List.all_cons]
      simp at ht
      simp [ht]

theorem tracePhiLoop_all_skipped (g : Graph n) (phi : Fin n)
    (edges : List (Fin n)) (t : TracerType) (w : Finset (Fin n)) :
    ∀ hv : Bool,
      (∀ e ∈ edges, edgeLeadsTo g e phi w = true ∨ isNilConst g e = true) →
      tracePhiLoop g phi edges hv t w = hv := by
  induction edges with
  | nil => intro hv _; rw [tracePhiLoop]
  | cons e rest ih =>
    intro hv h
    rw [tracePhiLoop]
    by_cases hl : edgeLeadsTo g e phi w = true
    · simp only [hl, if_true]
      exact ih hv fun x hx => h x (List.mem_cons_of_mem _ hx)
    · rcases h e (List.mem_cons_self _ _) with hc | hc
      · exact absurd hc hl
      · simp only [hl, if_false, hc, if_true]
        simp only [Bool.not_eq_true] at hl
        simp only [hl, Bool.false_eq_true, if_false, hc, if_true]
        exact ih hv fun x hx => h x (List.mem_cons_of_mem _ hx)

theorem tracePhiLoop_no_skip (g : Graph n) (phi : Fin n)
    (edges : List (Fin n)) (t : TracerType) (w : Finset (Fin n)) :
    ∀ hv : Bool,
      (∀ e ∈ edges, edgeLeadsTo g e phi w = false ∧ isNilConst g e = false) →
      edges ≠ [] →
      tracePhiLoop g phi edges hv t w =
        edges.all fun e => (traceValue g e t w).1 := by
  induction edges with
  | nil => intro hv _ hne; exact absurd rfl hne
  | cons e rest ih =>
    intro hv h _
    obtain ⟨hl, hc⟩ := h e (List.mem_cons_self _ _)
    rw [tracePhiLoop]
    simp only [hl, Bool.false_eq_true, if_false, hc]
    by_cases ht : (traceValue g e t w).1 = true
    · simp only [ht, if_true]
      cases rest with
      | nil =>
        rw [tracePhiLoop]
        simp [ht]
      | cons r rs =>
        rw [ih true (fun x hx => h x (List.mem_cons_of_mem _ hx))
          (List.cons_ne_nil _ _)]
        simp [ht]
    · simp only [Bool.not_eq_true] at ht
      simp [ht]

theorem traceIIFELoop_all_true (g : Graph n) (rets : List (List (Fin n)))
    (t : TracerType) (w : Finset (Fin n)) :
    ∀ hv : Bool,
      (∀ rs ∈ rets, ∀ r0 rest, rs = r0 :: rest →
        (traceValue g r0 t w).1 = true) →
      traceIIFELoop g rets hv t w =
        (hv || rets.any fun rs => !rs.isEmpty) := by
  induction rets with
  | nil => intro hv _; rw [traceIIFELoop]; simp
  | cons rs rest ih =>
    intro hv h
    cases rs with
    | nil =>
      rw [traceIIFELoop]
      rw [ih hv fun x hx => h x (List.mem_cons_of_mem _ hx)]
      simp
    | cons r0 rs2 =>
      rw [traceIIFELoop]
      have ht := h _ (List.mem_cons_self _ _) r0 rs2 rfl
      simp only [ht, if_true]
      rw [ih true fun x hx => h x (List.mem_cons_of_mem _ hx)]
      simp

theorem traceFreeVarLoop_head_true (g : Graph n) (bs : List (Fin n))
    (rest : List (List (Fin n))) (idx : Nat) (t : TracerType)
    (w : Finset (Fin n)) (hb : idx < bs.length)
    (ht : (traceValue g bs[idx] t w).1 = true) :
    (traceFreeVarLoop g (bs :: rest) idx t w).1 = true := by
  rw [traceFreeVarLoop]
  simp only [dif_pos hb]
  rcases htv : traceValue g bs[idx] t w with ⟨b, s⟩
  have hb2 : b = true := by rw [htv] at ht; exact ht
  subst hb2
  simp [htv]

theorem traceFreeVar_eq_loop (g : Graph n) (v : Fin n) (fnId : FuncId)
    (t : TracerType) (w : Finset (Fin n)) (idx : Nat) (p : FuncId)
    (hidxeq : idx = (g.func fnId).freeVars.findIdx fun fv => decide (fv = v))
    (hfound : idx < (g.func fnId).freeVars.length)
    (hpar : (g.func fnId).parent = some p) :
    traceFreeVar g v fnId t w =
      traceFreeVarLoop g (makeClosuresOf (g.func p) fnId) idx t w := by
  rw [traceFreeVar]
  simp only [← hidxeq, hpar, hfound, if_true]

theorem traceValue_call_none (g : Graph n) (v : Fin n)
    (cb : Option (List (Fin n))) (recv : Option GoType)
    (args : List (Fin n)) (t : TracerType) (vis : Finset (Fin n))
    (hnv : v ∉ vis) (hnode : g.node v = .call none cb recv args) :
    traceValue g v t vis = traceReceiver g args t (insert v vis) := by
  rw [traceValue_call g v none cb recv args t vis hnv hnode]

theorem traceValue_call_some (g : Graph n) (v : Fin n) (fId : FuncId)
    (cb : Option (List (Fin n))) (recv : Option GoType)
    (args : List (Fin n)) (t : TracerType) (vis : Finset (Fin n))
    (hnv : v ∉ vis) (hnode : g.node v = .call (some fId) cb recv args) :
    traceValue g v t vis =
      (if cb.isSome && traceIIFEReturns g fId t (insert v vis) then
         (true, insert v vis)
       else
         match checkContext args (g.func fId) recv t with
         | .found => (true, insert v vis)
         | .delegate dst dv => traceValue g dv dst (insert v vis)
         | .cont =>
           if shouldContinueOnReceiver recv t then
             traceReceiver g args t (insert v vis)
           else (false, insert v vis)) := by
  rw [traceValue_call g v (some fId) cb recv args t vis hnv hnode]

/-! ## Claim theorems -/

theorem tracePhiLoop_filter (g : Graph n) (phi : Fin n)
    (edges : List (Fin n)) (t : TracerType) (w : Finset (Fin n)) :
    ∀ hv : Bool,
      tracePhiLoop g phi edges hv t w =
        ((hv || !(edges.filter fun e =>
            !(edgeLeadsTo g e phi w) && !(isNilConst g e)).isEmpty) &&
         (edges.filter fun e =>
            !(edgeLeadsTo g e phi w) && !(isNilConst g e)).all fun e =>
              (traceValue g e t w).1) := by
  induction edges with
  | nil => intro hv; rw [tracePhiLoop]; simp
  | cons e rest ih =>
    intro hv
    rw [tracePhiLoop]
    by_cases hl : edgeLeadsTo g e phi w = true
    · rw [if_pos hl, ih hv, List.filter_cons_of_neg (by simp [hl])]
    · rw [if_neg hl]
      by_cases hc : isNilConst g e = true
      · rw [if_pos hc, ih hv, List.filter_cons_of_neg (by simp [hc])]
      · rw [if_neg hc]
        rw [List.filter_cons_of_pos (by simp [hl, hc])]
        by_cases ht : (traceValue g e t w).1 = true
        · rw [if_pos ht, ih true]
          simp [ht]
        · rw [if_neg ht]
          simp only [Bool.not_eq_true] at ht
          simp [ht]

/-- C2: resolving a `Join` (SSA `Phi`) first drops nil-literal edges and
edges whose backward chain leads back to the same phi; in general the phi
resolves `true` iff at least one edge remains after dropping and every
remaining edge resolves `true`, each on an independently cloned visited
set; so a phi with no edges, or with every edge dropped, resolves `false`,
and with no edge dropped the phi resolves to the conjunction of its edges'
resolutions. -/
theorem phi_join_law (g : Graph n) (v : Fin n) (edges : List (Fin n))
    (t : TracerType) (vis : Finset (Fin n)) (hnv : v ∉ vis)
    (hnode : g.node v = .phi edges) :
    ((traceValue g v t vis).1 =
      (!(edges.filter fun e =>
          !(edgeLeadsTo g e v (insert v vis)) && !(isNilConst g e)).isEmpty &&
       (edges.filter fun e =>
          !(edgeLeadsTo g e v (insert v vis)) && !(isNilConst g e)).all
            fun e => (traceValue g e t (insert v vis)).1))
    ∧ (edges = [] → (traceValue g v t vis).1 = false)
    ∧ ((∀ e ∈ edges, edgeLeadsTo g e v (insert v vis) = true ∨
          isNilConst g e = true) →
        (traceValue g v t vis).1 = false)
    ∧ (edges ≠ [] →
       (∀ e ∈ edges, edgeLeadsTo g e v (insert v vis) = false ∧
          isNilConst g e = false) →
        (traceValue g v t vis).1 =
          edges.all fun e => (traceValue g e t (insert v vis)).1) := by
  have hmain : (traceValue g v t vis).1 =
      tracePhi g v edges t (insert v vis) := by
    rw [traceValue_phi g v edges t vis hnv hnode]
  refine ⟨?_, ?_, ?_, ?_⟩
  · rw [hmain, tracePhi]
    cases hedges : edges with
    | nil => simp
    | cons e rest =>
      simp only [List.isEmpty_cons, Bool.false_eq_true, if_false]
      rw [tracePhiLoop_filter g v (e :: rest) t (insert v vis) false]
      simp
  · intro he
    subst he
    rw [hmain, tracePhi]
    simp
  · intro h
    rw [hmain, tracePhi]
    by_cases he : edges.isEmpty
    · simp [he]
    · simp only [he, Bool.false_eq_true, if_false]
      exact tracePhiLoop_all_skipped g v edges t _ false h
  · intro hne h
    rw [hmain, tracePhi]
    have he : edges.isEmpty = false := by
      cases edges with
      | nil => exact absurd rfl hne
      | cons e rest => rfl
    simp only [he, Bool.false_eq_true, if_false]
    exact tracePhiLoop_no_skip g v edges t _ false h hne

/-- C3: a pointer dereference (`UnOp MUL`) or local allocation (`Alloc`)
resolves through the stores gathered by `findAllStoredValues` — which
contains exactly the values stored in the owning procedure at an address
structurally matching the given one, excluding self-referential stores
whose stored value reads from the same address; when at least one store
remains, resolution is the conjunction over all remaining stored values,
each explored on an independently cloned visited set; with no stores, an
allocation fails while a dereference falls back to the address expression
itself. -/
theorem indirection_all_stores (g : Graph n) (v x : Fin n) (t : TracerType)
    (vis : Finset (Fin n)) (hnv : v ∉ vis) :
    (∀ a0 : Fin n,
      (parentOfValue g a0 = none → findAllStoredValues g a0 = [])
      ∧ ∀ fId, parentOfValue g a0 = some fId →
          ∀ s, s ∈ findAllStoredValues g a0 ↔
            ∃ a, Instr.store a s ∈ (g.func fId).instrs ∧
              addressesMatch g a a0 = true ∧
              valueLoadsFrom g s a0 ∅ = false)
    ∧ (g.node v = .unop true x →
      (findAllStoredValues g x ≠ [] →
        (traceValue g v t vis).1 =
          (findAllStoredValues g x).all fun s =>
            (traceValue g s t (insert v vis)).1)
      ∧ (findAllStoredValues g x = [] →
          traceValue g v t vis = traceValue g x t (insert v vis)))
    ∧ (g.node v = .alloc →
      (findAllStoredValues g v ≠ [] →
        (traceValue g v t vis).1 =
          (findAllStoredValues g v).all fun s =>
            (traceValue g s t (insert v vis)).1)
      ∧ (findAllStoredValues g v = [] →
          (traceValue g v t vis).1 = false)) := by
  refine ⟨?_, ?_, ?_⟩
  · intro a0
    constructor
    · intro hp
      unfold findAllStoredValues
      rw [hp]
    · intro fId hp s
      unfold findAllStoredValues
      rw [hp]
      rw [List.mem_filterMap]
      constructor
      · rintro ⟨i, hi, hsome⟩
        cases i with
        | store a val =>
          by_cases hcond : (addressesMatch g a a0 &&
              !valueLoadsFrom g val a0 ∅) = true
          · simp only [if_pos hcond, Option.some.injEq] at hsome
            subst hsome
            simp only [Bool.and_eq_true, Bool.not_eq_true'] at hcond
            exact ⟨a, hi, hcond.1, hcond.2⟩
          · simp only [if_neg hcond] at hsome
            cases hsome
        | makeClosure fn bs => simp at hsome
        | ret rs => simp at hsome
        | skip => simp at hsome
      · rintro ⟨a, hmem, hm, hnl⟩
        exact ⟨.store a s, hmem, by simp [hm, hnl]⟩
  · intro hnode
    rw [traceValue_unop g v x true t vis hnv hnode]
    rw [traceUnOp]
    cases hfs : findAllStoredValues g x with
    | nil =>
      refine ⟨fun hne => absurd rfl hne, fun _ => ?_⟩
      simp
    | cons s rest =>
      refine ⟨fun _ => ?_, fun he => absurd he (List.cons_ne_nil s rest)⟩
      simp [traceAllStoredValues_all]
  · intro hnode
    rw [traceValue_alloc g v t vis hnv hnode]
    rw [traceAlloc]
    cases hfs : findAllStoredValues g v with
    | nil => exact ⟨fun hne => absurd rfl hne, fun _ => by simp⟩
    | cons s rest =>
      refine ⟨fun _ => ?_, fun he => absurd he (List.cons_ne_nil s rest)⟩
      simp [traceAllStoredValues_all]

/-- C5: a call whose callee value is a closure creation with a statically
resolved callee whose first declared result is a role type resolves `true`
whenever the invoked procedure has at least one result-bearing return and
every result-bearing return's first result traces `true` on a cloned
visited set — short-circuiting before the role tracer is consulted; a
procedure with no result-bearing return does not succeed by this rule. -/
theorem iife_short_circuit (g : Graph n) (v : Fin n) (fId : FuncId)
    (bs : List (Fin n)) (recv : Option GoType) (args : List (Fin n))
    (t : TracerType) (vis : Finset (Fin n)) (hnv : v ∉ vis)
    (hnode : g.node v = .call (some fId) (some bs) recv args)
    (r0 : GoType) (rrest : List GoType)
    (hres : (g.func fId).results = r0 :: rrest)
    (hrole : (IsEvent r0 || IsLogger r0 || IsContext r0) = true) :
    ((∃ rs ∈ returnsOf (g.func fId), rs ≠ []) →
      (∀ rs ∈ returnsOf (g.func fId), ∀ q qs, rs = q :: qs →
        (traceValue g q t (insert v vis)).1 = true) →
      (traceValue g v t vis).1 = true)
    ∧ ((∀ rs ∈ returnsOf (g.func fId), rs = []) →
        traceIIFEReturns g fId t (insert v vis) = false) := by
  have hloopeq : ∀ w, traceIIFEReturns g fId t w =
      traceIIFELoop g (returnsOf (g.func fId)) false t w := by
    intro w
    rw [traceIIFEReturns]
    simp only [hres, hrole, if_true]
  constructor
  · rintro ⟨rs0, hrs0, hrs0ne⟩ hall
    have hii : traceIIFEReturns g fId t (insert v vis) = true := by
      rw [hloopeq, traceIIFELoop_all_true g _ t _ false hall]
      simp only [Bool.false_or, List.any_eq_true]
      refine ⟨rs0, hrs0, ?_⟩
      cases rs0 with
      | nil => exact absurd rfl hrs0ne
      | cons q qs => simp
    rw [traceValue_call_some g v fId (some bs) recv args t vis hnv hnode]
    simp [hii]
  · intro hall
    rw [hloopeq, traceIIFELoop_all_true g _ t _ false
      fun rs hrs q qs he => absurd (he ▸ hall rs hrs) (List.cons_ne_nil q qs)]
    simp only [Bool.false_or]
    rw [List.any_eq_false]
    intro rs hrs
    rw [hall rs hrs]
    simp

/-- C6: resolution is total and fails closed — a call with no statically
resolved callee conservatively continues on the receiver (the first
argument) under the unchanged active role, or `false` with no arguments;
and a non-call node of unrecognized shape resolves `false`. -/
theorem conservative_fallbacks (g : Graph n) (v : Fin n) (t : TracerType)
    (vis : Finset (Fin n)) :
    (∀ cb recv args, g.node v = .call none cb recv args → v ∉ vis →
      ((args = [] → traceValue g v t vis = (false, insert v vis))
       ∧ ∀ a rest, args = a :: rest →
          traceValue g v t vis = traceValue g a t (insert v vis)))
    ∧ ((g.node v = .other ∨ ∃ c, g.node v = .const c) →
        (traceValue g v t vis).1 = false) := by
  constructor
  · intro cb recv args hnode hnv
    rw [traceValue_call_none g v cb recv args t vis hnv hnode]
    constructor
    · intro he
      subst he
      rw [traceReceiver]
    · intro a rest he
      subst he
      rw [traceReceiver]
  · exact traceValue_fails_closed g v t vis

/-- The Event tracer's marker-setter condition, in propositional form. -/
theorem eventSetterCond_iff (callee : Func n) (recv : Option GoType) :
    (callee.name == CtxMethod &&
      (match recv with
       | some t => IsEvent t || IsContext t
       | none => false)) = true ↔
    (callee.name = CtxMethod ∧ ∃ rt, recv = some rt ∧
      (IsEvent rt = true ∨ IsContext rt = true)) := by
  cases recv <;> simp [Bool.and_eq_true]

/-- The Context tracer's marker-setter condition, in propositional form. -/
theorem contextSetterCond_iff (callee : Func n) (recv : Option GoType) :
    (callee.name == CtxMethod &&
      (match recv with
       | some t => IsContext t
       | none => false)) = true ↔
    (callee.name = CtxMethod ∧ ∃ rt, recv = some rt ∧
      IsContext rt = true) := by
  cases recv <;> simp [Bool.and_eq_true]

/-- C8: the three role tracers return `Found` exactly when — Event
(Builder) tracer: the callee is the marker-setter name on an Event or
Context receiver, or the callee is the ambient marker source
(`zerolog.Ctx`/`log.Ctx`); Logger (Carrier) tracer: only the ambient
marker source; Context (FieldSet) tracer: only the marker-setter name on a
Context receiver, never the ambient marker source. -/
theorem tracer_found_conditions (args : List (Fin n)) (callee : Func n)
    (recv : Option GoType) :
    (checkContextForEvent args callee recv = .found ↔
      ((callee.name = CtxMethod ∧ ∃ rt, recv = some rt ∧
          (IsEvent rt = true ∨ IsContext rt = true))
        ∨ IsCtxFunc callee = true))
    ∧ (checkContextForLogger args callee recv = .found ↔
        IsCtxFunc callee = true)
    ∧ (checkContextForContext args callee recv = .found ↔
        (callee.name = CtxMethod ∧ ∃ rt, recv = some rt ∧
          IsContext rt = true)) := by
  refine ⟨?_, ?_, ?_⟩
  · have hbool : checkContextForEvent args callee recv = .found ↔
        ((callee.name == CtxMethod &&
          (match recv with
           | some t => IsEvent t || IsContext t
           | none => false)) = true ∨ IsCtxFunc callee = true) := by
      unfold checkContextForEvent
      split_ifs with h1 h2 h3 h4 <;>
        first
        | (cases args <;> simp [h1, h2])
        | (cases args <;> simp [h1])
    rw [hbool]
    exact or_congr (eventSetterCond_iff callee recv) Iff.rfl
  · have hbool : checkContextForLogger args callee recv = .found ↔
        IsCtxFunc callee = true := by
      unfold checkContextForLogger
      split_ifs with h1 h2 h3 <;>
        (cases args <;> simp [h1])
    exact hbool
  · have hbool : checkContextForContext args callee recv = .found ↔
        (callee.name == CtxMethod &&
          (match recv with
           | some t => IsContext t
           | none => false)) = true := by
      unfold checkContextForContext
      split_ifs with h1 h2 <;>
        (cases args <;> simp [h1])
    rw [hbool]
    exact contextSetterCond_iff callee recv

/-- C4: a call with an ambient binding in scope whose callee is classified
as direct logging (a void `Print*` method on a Logger receiver, or a void
`Print*` function from zerolog/log) is always reported at the call
position, subject only to position dedup and line suppression, without
invoking the resolve engine — the outcome equals `reportDirectLogging`
regardless of anything the tracer could compute (in particular regardless
of any marker-setter called earlier on the receiver). -/
theorem directLogging_always_reported (g : Graph n) (cfg : CheckerCfg)
    (reported : Finset Nat) (v : Fin n) (fId : FuncId)
    (cb : Option (List (Fin n))) (recv : Option GoType)
    (args : List (Fin n))
    (hnode : g.node v = .call (some fId) cb recv args)
    (hclass : IsDirectLoggingMethod (g.func fId) recv = true ∨
      IsDirectLoggingFunc (g.func fId) = true) :
    checkDirectLoggingCall g cfg reported v =
      reportDirectLogging cfg reported (g.pos v)
    ∧ (g.pos v ∉ reported →
       shouldIgnoreLine cfg (cfg.posLine (g.pos v)) = false →
       (checkDirectLoggingCall g cfg reported v).1 =
         some ⟨g.pos v, .directLogging⟩) := by
  have hmain : checkDirectLoggingCall g cfg reported v =
      reportDirectLogging cfg reported (g.pos v) := by
    unfold checkDirectLoggingCall
    rcases hclass with h | h
    · simp [hnode, h]
    · by_cases hm : IsDirectLoggingMethod (g.func fId) recv = true
      · simp [hnode, hm]
      · simp [hnode, hm, h]
  refine ⟨hmain, fun hfresh hsup => ?_⟩
  rw [hmain]
  unfold reportDirectLogging
  simp [hfresh, hsup]

/-- C9: resolve is deterministic — two invocations of the tracer on the
same immutable value graph (same nodes, same classifier answers, same
stores), each with a fresh registry and a fresh empty visited set exactly
as `eventChainHasCtx` performs them, return the same boolean. -/
theorem resolve_deterministic (g1 g2 : Graph n) (v : Fin n)
    (h : g1 = g2) : eventChainHasCtx g1 v = eventChainHasCtx g2 v := by
  rw [h]

/-- A one-node graph used to witness determinism concretely. -/
def gDet : Graph 1 where
  node := fun _ => .other

theorem resolve_deterministic_witness :
    gDet = gDet ∧ eventChainHasCtx gDet 0 = eventChainHasCtx gDet 0 :=
  ⟨rfl, resolve_deterministic gDet gDet 0 rfl⟩

/-- C10: a terminator invoked through a bound method value (callee value a
closure creation) is reported exactly when the callee returns nothing, the
closure has a first captured binding whose static type is
`*zerolog.Event`, resolving that binding fails, the position is not yet
reported and the line is not suppressed; with zero bindings (or a non-Event
first binding) nothing is reported. -/
theorem bound_method_terminator_conditions (g : Graph n) (cfg : CheckerCfg)
    (reported : Finset Nat) (v : Fin n) (fId : FuncId) (bs : List (Fin n))
    (recv : Option GoType) (args : List (Fin n))
    (hnode : g.node v = .call (some fId) (some bs) recv args) :
    (bs = [] → (checkTerminatorCall g cfg reported v).1 = none)
    ∧ (∀ b0 rest, bs = b0 :: rest →
        ((checkTerminatorCall g cfg reported v).1.isSome ↔
          (ReturnsVoid (g.func fId) = true ∧ IsEvent (g.ty b0) = true ∧
           eventChainHasCtx g b0 = false ∧ g.pos v ∉ reported ∧
           shouldIgnoreLine cfg (cfg.posLine (g.pos v)) = false))) := by
  have hmain : checkTerminatorCall g cfg reported v =
      checkBoundMethodTerminator g cfg reported v bs (g.func fId) := by
    unfold checkTerminatorCall
    simp [hnode]
  constructor
  · intro he
    subst he
    rw [hmain]
    unfold checkBoundMethodTerminator
    by_cases h1 : ReturnsVoid (g.func fId) = true <;> simp [h1]
  · intro b0 rest he
    subst he
    rw [hmain]
    unfold checkBoundMethodTerminator report
    by_cases h1 : ReturnsVoid (g.func fId) = true <;>
      by_cases h2 : IsEvent (g.ty b0) = true <;>
        by_cases h3 : eventChainHasCtx g b0 = true <;>
          by_cases h4 : g.pos v ∈ reported <;>
            by_cases h5 : shouldIgnoreLine cfg (cfg.posLine (g.pos v)) = true <;>
              simp [h1, h2, h3, h4, h5]

/-- C1 (amended): resolving a `CapturedVar` (SSA `FreeVar`) reduces to the
sequential scan of every `ClosureCreation` in the enclosing procedure that
instantiates the same procedure template, and it succeeds as soon as one
candidate binding at the captured index resolves `true` (a disjunction
across creation sites, sharing the threaded visited set) — in particular a
first creation site whose binding resolves `true` makes the captured
variable resolve `true` regardless of the other sites. -/
theorem capturedVar_any_site (g : Graph n) (v : Fin n) (fnId : FuncId)
    (t : TracerType) (vis : Finset (Fin n)) (p : FuncId) (idx : Nat)
    (hnv : v ∉ vis) (hnode : g.node v = .freeVar fnId)
    (hidxeq : idx = (g.func fnId).freeVars.findIdx fun fv => decide (fv = v))
    (hfound : idx < (g.func fnId).freeVars.length)
    (hpar : (g.func fnId).parent = some p) :
    traceValue g v t vis =
      traceFreeVarLoop g (makeClosuresOf (g.func p) fnId) idx t
        (insert v vis)
    ∧ (∀ bs rest, makeClosuresOf (g.func p) fnId = bs :: rest →
        ∀ hb : idx < bs.length,
          (traceValue g bs[idx] t (insert v vis)).1 = true →
          (traceValue g v t vis).1 = true) := by
  have hmain : traceValue g v t vis =
      traceFreeVarLoop g (makeClosuresOf (g.func p) fnId) idx t
        (insert v vis) := by
    rw [traceValue_freeVar g v fnId t vis hnv hnode]
    exact traceFreeVar_eq_loop g v fnId t (insert v vis) idx p hidxeq
      hfound hpar
  refine ⟨hmain, fun bs rest hmcs hb ht => ?_⟩
  rw [hmain, hmcs]
  exact traceFreeVarLoop_head_true g bs rest idx t (insert v vis) hb ht

/-- A three-node graph refuting the closure-site join: the free variable
(node 0) of function 1 is bound at two creation sites in the enclosing
function 0 — once to node 1 (a call to the ambient marker source
`zerolog.Ctx`, which resolves `true`) and once to node 2 (an opaque node,
which resolves `false`). -/
def gC1 : Graph 3 where
  node := fun v =>
    match v.val with
    | 0 => .freeVar 1
    | 1 => .call (some 10) none none []
    | _ => .other
  func := fun f =>
    match f with
    | 0 => { instrs := [.makeClosure 1 [1], .makeClosure 1 [2]] }
    | 1 => { freeVars := [0], parent := some 0 }
    | 10 => { name := "Ctx", pkgPath := some zerologPkgPath }
    | _ => {}

theorem gC1_marker_binding : ∀ w : Finset (Fin 3), (1 : Fin 3) ∉ w →
    (traceValue gC1 1 TracerType.event w).1 = true := by
  intro w hw
  rw [traceValue_call_some gC1 1 10 none none [] TracerType.event w hw rfl]
  have hc : checkContext ([] : List (Fin 3)) (gC1.func 10) none
      TracerType.event = .found := by decide
  simp [hc]

/-- C1 (counterexample): a `CapturedVar` bound at exactly two creation
sites, one whose binding resolves `true` (the marker source) and one whose
binding resolves `false`, resolves to `true` — not `false` as the claim
states. -/
theorem capturedVar_two_sites_counterexample :
    (traceValue gC1 1 TracerType.event ∅).1 = true
    ∧ (traceValue gC1 2 TracerType.event ∅).1 = false
    ∧ (traceValue gC1 0 TracerType.event ∅).1 = true := by
  refine ⟨gC1_marker_binding ∅ (by decide), ?_, ?_⟩
  · exact traceValue_fails_closed gC1 2 TracerType.event ∅ (Or.inl rfl)
  · rw [traceValue_freeVar gC1 0 1 TracerType.event ∅ (by decide) rfl]
    rw [traceFreeVar_eq_loop gC1 0 1 TracerType.event (insert 0 ∅) 0 0
      (by decide) (by decide) rfl]
    rw [show makeClosuresOf (gC1.func 0) 1 = [[1], [2]] from rfl]
    exact traceFreeVarLoop_head_true gC1 [1] [[2]] 0 TracerType.event
      (insert 0 ∅) (by decide) (gC1_marker_binding (insert 0 ∅) (by decide))

theorem capturedVar_any_site_witness :
    ((0 : Fin 3) ∉ (∅ : Finset (Fin 3)))
    ∧ gC1.node 0 = .freeVar 1
    ∧ (traceValue gC1 0 TracerType.event ∅ =
        traceFreeVarLoop gC1 (makeClosuresOf (gC1.func 0) 1) 0
          TracerType.event (insert 0 ∅)) := by
  refine ⟨by decide, rfl, ?_⟩
  exact (capturedVar_any_site gC1 0 1 TracerType.event ∅ 0 0
    (by decide) rfl (by decide) (by decide) rfl).1

theorem edgeLeadsTo_other (g : Graph n) (v target : Fin n)
    (seen : Finset (Fin n)) (hne : v ≠ target) (hnv : v ∉ seen)
    (hnode : g.node v = .other) : edgeLeadsTo g v target seen = false := by
  unfold edgeLeadsTo
  rw [edgeLeadsToImpl.eq_def]
  simp [hne, hnv, hnode, unwrapInner]

/-- A twelve-node graph exercising the engine and driver on concrete
shapes: a phi over two opaque edges, a local slot with one initial store
and one self-referential store, an immediately-invoked closure returning a
marker-bearing call, a dynamically dispatched call, an unrecognized
constant, a direct-logging call and a bound method terminator. -/
def gW : Graph 12 where
  node := fun v =>
    match v.val with
    | 0 => .phi [1, 2]
    | 1 => .other
    | 2 => .other
    | 3 => .alloc
    | 4 => .call (some 10) none none []
    | 5 => .call (some 11) none none [6]
    | 6 => .unop true 3
    | 7 => .call (some 12) (some []) none []
    | 8 => .call none none none []
    | 9 => .const none
    | 10 => .call (some 13) none none []
    | _ => .call (some 14) (some [1]) none []
  ty := fun v =>
    if v.val = 1 then GoType.ptr (.named zerologPkgPath "Event")
    else .basic
  pos := fun v => v.val
  owner := fun v => if v.val = 3 then some 2 else none
  func := fun f =>
    match f with
    | 2 => { instrs := [.store 3 4, .store 3 5] }
    | 10 => { name := "Ctx", pkgPath := some zerologPkgPath }
    | 11 => { name := "f" }
    | 12 => { results := [GoType.ptr (.named zerologPkgPath "Event")],
              instrs := [.ret [4]] }
    | 13 => { name := "Print", pkgPath := some zerologLogPath }
    | 14 => {}
    | _ => {}

theorem gW_marker_call : ∀ w : Finset (Fin 12), (4 : Fin 12) ∉ w →
    (traceValue gW 4 TracerType.event w).1 = true := by
  intro w hw
  rw [traceValue_call_some gW 4 10 none none [] TracerType.event w hw rfl]
  have hc : checkContext ([] : List (Fin 12)) (gW.func 10) none
      TracerType.event = .found := by decide
  simp [hc]

theorem phi_join_law_witness :
    ((0 : Fin 12) ∉ (∅ : Finset (Fin 12)))
    ∧ gW.node 0 = .phi [1, 2]
    ∧ (traceValue gW 0 TracerType.event ∅).1 =
        ([1, 2] : List (Fin 12)).all fun e =>
          (traceValue gW e TracerType.event (insert 0 ∅)).1 := by
  refine ⟨by decide, rfl, ?_⟩
  refine (phi_join_law gW 0 [1, 2] TracerType.event ∅ (by decide) rfl).2.2.2
    (by simp) ?_
  intro e he
  fin_cases he <;>
    exact ⟨edgeLeadsTo_other gW _ 0 _ (by decide) (by decide) rfl, by decide⟩

theorem gW_initial_store_kept : valueLoadsFrom gW 4 3 ∅ = false := by
  have h4 : gW.node 4 = .call (some 10) none none [] := rfl
  rw [valueLoadsFrom.eq_def]
  simp [h4]

theorem gW_self_store_skipped : valueLoadsFrom gW 5 3 ∅ = true := by
  have h5 : gW.node 5 = .call (some 11) none none [6] := rfl
  have h6 : gW.node 6 = .unop true 3 := rfl
  have ham : addressesMatch gW 3 3 = true := by decide
  rw [valueLoadsFrom.eq_def]
  simp only [h5, Finset.not_mem_empty, if_false, dite_false]
  rw [valueLoadsFrom.eq_def]
  simp +decide [h6, ham]

theorem gW_stores_of_slot : findAllStoredValues gW 3 = [4] := by
  have hp : parentOfValue gW 3 = some 2 := by decide
  unfold findAllStoredValues
  rw [hp]
  have hi : (gW.func 2).instrs = [.store 3 4, .store 3 5] := rfl
  have ham : addressesMatch gW 3 3 = true := by decide
  simp [hi, ham, gW_initial_store_kept, gW_self_store_skipped]

theorem indirection_all_stores_witness :
    gW.node 3 = .alloc
    ∧ findAllStoredValues gW 3 = [4]
    ∧ (traceValue gW 3 TracerType.event ∅).1 = true := by
  refine ⟨rfl, gW_stores_of_slot, ?_⟩
  have h := ((indirection_all_stores gW 3 3 TracerType.event ∅
    (by decide)).2.2 rfl).1 (by rw [gW_stores_of_slot]; exact List.cons_ne_nil 4 [])
  rw [gW_stores_of_slot] at h
  rw [h]
  simp only [List.all_cons, List.all_nil, Bool.and_true]
  exact gW_marker_call (insert 3 ∅) (by decide)

theorem iife_short_circuit_witness :
    gW.node 7 = .call (some 12) (some []) none []
    ∧ (gW.func 12).results = [GoType.ptr (.named zerologPkgPath "Event")]
    ∧ (traceValue gW 7 TracerType.event ∅).1 = true := by
  refine ⟨rfl, rfl, ?_⟩
  refine (iife_short_circuit gW 7 12 [] none [] TracerType.event ∅
    (by decide) rfl (GoType.ptr (.named zerologPkgPath "Event")) [] rfl
    (by decide)).1 ⟨[4], ?_, List.cons_ne_nil 4 []⟩ ?_
  · have hr : returnsOf (gW.func 12) = [[4]] := rfl
    rw [hr]
    exact List.mem_singleton.mpr rfl
  · intro rs hrs q qs he
    have hr : returnsOf (gW.func 12) = [[4]] := rfl
    rw [hr] at hrs
    rw [List.mem_singleton] at hrs
    subst hrs
    injection he with hq hqs
    subst hq
    exact gW_marker_call (insert 7 ∅) (by decide)

theorem conservative_fallbacks_witness :
    gW.node 8 = .call none none none ([] : List (Fin 12))
    ∧ traceValue gW 8 TracerType.event ∅ = (false, insert 8 ∅)
    ∧ (traceValue gW 9 TracerType.event ∅).1 = false := by
  refine ⟨rfl, ?_, ?_⟩
  · exact ((conservative_fallbacks gW 8 TracerType.event ∅).1 none none []
      rfl (by decide)).1 rfl
  · exact (conservative_fallbacks gW 9 TracerType.event ∅).2
      (Or.inr ⟨none, rfl⟩)

theorem directLogging_always_reported_witness :
    gW.node 10 = .call (some 13) none none ([] : List (Fin 12))
    ∧ IsDirectLoggingFunc (gW.func 13) = true
    ∧ (checkDirectLoggingCall gW {} ∅ 10).1 =
        some ⟨gW.pos 10, DiagKind.directLogging⟩ := by
  refine ⟨rfl, by decide, ?_⟩
  exact (directLogging_always_reported gW {} ∅ 10 13 none none [] rfl
    (Or.inr (by decide))).2 (by decide) rfl

theorem bound_method_terminator_witness :
    gW.node 11 = .call (some 14) (some [1]) none ([] : List (Fin 12))
    ∧ ((checkTerminatorCall gW {} ∅ 11).1.isSome ↔
        (ReturnsVoid (gW.func 14) = true ∧ IsEvent (gW.ty 1) = true ∧
         eventChainHasCtx gW 1 = false ∧
         gW.pos 11 ∉ (∅ : Finset Nat) ∧
         shouldIgnoreLine {} (CheckerCfg.posLine {} (gW.pos 11)) = false)) :=
  ⟨rfl, (bound_method_terminator_conditions gW {} ∅ 11 14 [1] none []
    rfl).2 1 [] rfl⟩

/-! ## Lemmas for the ambient-binding fixed point (C7) -/

theorem directPass_frame (g : Graph n) (isCtx : GoType → Bool)
    (l : List FuncId) :
    ∀ (m : FuncId → Option String) (x : FuncId), x ∉ l →
      directPass g isCtx l m x = m x := by
  induction l with
  | nil => intro m x _; rfl
  | cons f rest ih =>
    intro m x hx
    have hxf : x ≠ f := fun he => hx (he ▸ List.mem_cons_self _ _)
    have hxr : x ∉ rest := fun hr => hx (List.mem_cons_of_mem _ hr)
    cases hf : findContextInParams (g.func f) isCtx with
    | none => simp only [directPass, hf]; exact ih m x hxr
    | some nm =>
      simp only [directPass, hf]
      rw [ih _ x hxr]
      simp [hxf]

theorem directPass_mem (g : Graph n) (isCtx : GoType → Bool)
    (l : List FuncId) :
    ∀ (m : FuncId → Option String),
      (∀ y, m y = none ∨ m y = findContextInParams (g.func y) isCtx) →
      ∀ x ∈ l, directPass g isCtx l m x =
        findContextInParams (g.func x) isCtx := by
  induction l with
  | nil => intro m _ x hx; exact absurd hx (List.not_mem_nil x)
  | cons f rest ih =>
    intro m hq x hx
    cases hf : findContextInParams (g.func f) isCtx with
    | none =>
      simp only [directPass, hf]
      by_cases hxr : x ∈ rest
      · exact ih m hq x hxr
      · have hxf : x = f := by
          rcases List.mem_cons.mp hx with he | hr
          · exact he
          · exact absurd hr hxr
        subst hxf
        rw [directPass_frame g isCtx rest m x hxr]
        rcases hq x with h | h
        · rw [h, hf]
        · rw [h]
    | some nm =>
      simp only [directPass, hf]
      have hq' : ∀ y, (fun z => if z = f then some nm else m z) y = none ∨
          (fun z => if z = f then some nm else m z) y =
            findContextInParams (g.func y) isCtx := by
        intro y
        by_cases hyf : y = f
        · subst hyf
          right
          simp [hf]
        · simpa [hyf] using hq y
      by_cases hxr : x ∈ rest
      · exact ih _ hq' x hxr
      · have hxf : x = f := by
          rcases List.mem_cons.mp hx with he | hr
          · exact he
          · exact absurd hr hxr
        subst hxf
        rw [directPass_frame g isCtx rest _ x hxr]
        simp [hf]

theorem propagatePass_flag (g : Graph n) (l : List FuncId) :
    ∀ (m : FuncId → Option String), (propagatePass g l m true).2 = true := by
  induction l with
  | nil => intro m; rfl
  | cons f rest ih =>
    intro m
    cases hmf : m f with
    | some v => simp only [propagatePass, hmf]; exact ih m
    | none =>
      cases hpar : (g.func f).parent with
      | none => simp only [propagatePass, hmf, hpar]; exact ih m
      | some p =>
        cases hmp : m p with
        | none => simp only [propagatePass, hmf, hpar, hmp]; exact ih m
        | some info => simp only [propagatePass, hmf, hpar, hmp]; exact ih _

theorem propagatePass_unchanged (g : Graph n) (l : List FuncId) :
    ∀ (m : FuncId → Option String),
      (propagatePass g l m false).2 = false →
      (propagatePass g l m false).1 = m := by
  induction l with
  | nil => intro m _; rfl
  | cons f rest ih =>
    intro m h
    cases hmf : m f with
    | some v =>
      simp only [propagatePass, hmf] at h ⊢
      exact ih m h
    | none =>
      cases hpar : (g.func f).parent with
      | none =>
        simp only [propagatePass, hmf, hpar] at h ⊢
        exact ih m h
      | some p =>
        cases hmp : m p with
        | none =>
          simp only [propagatePass, hmf, hpar, hmp] at h ⊢
          exact ih m h
        | some info =>
          exfalso
          simp only [propagatePass, hmf, hpar, hmp] at h
          rw [propagatePass_flag g rest _] at h
          cases h

theorem propagatePass_fix (g : Graph n) (l : List FuncId) :
    ∀ (m : FuncId → Option String),
      (propagatePass g l m false).2 = false →
      ∀ f ∈ l, m f = none → ∀ p, (g.func f).parent = some p →
        m p = none := by
  induction l with
  | nil => intro m _ f hf; exact absurd hf (List.not_mem_nil f)
  | cons f0 rest ih =>
    intro m h f hf hmf p hpar
    cases hm0 : m f0 with
    | some v =>
      simp only [propagatePass, hm0] at h
      rcases List.mem_cons.mp hf with he | hr
      · subst he; rw [hm0] at hmf; cases hmf
      · exact ih m h f hr hmf p hpar
    | none =>
      cases hp0 : (g.func f0).parent with
      | none =>
        simp only [propagatePass, hm0, hp0] at h
        rcases List.mem_cons.mp hf with he | hr
        · subst he; rw [hp0] at hpar; cases hpar
        · exact ih m h f hr hmf p hpar
      | some p0 =>
        cases hmp0 : m p0 with
        | none =>
          simp only [propagatePass, hm0, hp0, hmp0] at h
          rcases List.mem_cons.mp hf with he | hr
          · subst he
            rw [hp0] at hpar
            injection hpar with hp
            subst hp
            exact hmp0
          · exact ih m h f hr hmf p hpar
        | some info =>
          exfalso
          simp only [propagatePass, hm0, hp0, hmp0] at h
          rw [propagatePass_flag g rest _] at h
          cases h

theorem propagateLoop_eq (g : Graph n) (fns : List FuncId)
    (m : FuncId → Option String) :
    propagateLoop g fns m =
      if (propagatePass g fns m false).2 = true then
        propagateLoop g fns (propagatePass g fns m false).1
      else (propagatePass g fns m false).1 := by
  rw [propagateLoop]
  rw [dite_eq_ite]

theorem propagateLoop_mono (g : Graph n) (fns : List FuncId) :
    ∀ (N : Nat) (m : FuncId → Option String), unboundCount fns m ≤ N →
      ∀ x s, m x = some s → propagateLoop g fns m x = some s := by
  intro N
  induction N with
  | zero =>
    intro m hle x s hx
    rw [propagateLoop_eq]
    by_cases hr : (propagatePass g fns m false).2 = true
    · exfalso
      rcases (propagatePass_count g fns fns m false fun a ha => ha).2 hr
        with hc | hlt
      · cases hc
      · omega
    · rw [if_neg hr]
      exact propagatePass_mono g fns m false x s hx
  | succ N IH =>
    intro m hle x s hx
    rw [propagateLoop_eq]
    by_cases hr : (propagatePass g fns m false).2 = true
    · rw [if_pos hr]
      rcases (propagatePass_count g fns fns m false fun a ha => ha).2 hr
        with hc | hlt
      · cases hc
      · exact IH _ (by omega) x s (propagatePass_mono g fns m false x s hx)
    · rw [if_neg hr]
      exact propagatePass_mono g fns m false x s hx

theorem propagateLoop_fix (g : Graph n) (fns : List FuncId) :
    ∀ (N : Nat) (m : FuncId → Option String), unboundCount fns m ≤ N →
      ∀ f ∈ fns, propagateLoop g fns m f = none →
        ∀ p, (g.func f).parent = some p → propagateLoop g fns m p = none := by
  intro N
  induction N with
  | zero =>
    intro m hle f hf hMf p hpar
    rw [propagateLoop_eq] at hMf ⊢
    by_cases hr : (propagatePass g fns m false).2 = true
    · exfalso
      rcases (propagatePass_count g fns fns m false fun a ha => ha).2 hr
        with hc | hlt
      · cases hc
      · omega
    · rw [if_neg hr] at hMf ⊢
      rw [propagatePass_unchanged g fns m (by simpa using hr)] at hMf ⊢
      exact propagatePass_fix g fns m (by simpa using hr) f hf hMf p hpar
  | succ N IH =>
    intro m hle f hf hMf p hpar
    rw [propagateLoop_eq] at hMf ⊢
    by_cases hr : (propagatePass g fns m false).2 = true
    · rw [if_pos hr] at hMf ⊢
      rcases (propagatePass_count g fns fns m false fun a ha => ha).2 hr
        with hc | hlt
      · cases hc
      · exact IH _ (by omega) f hf hMf p hpar
    · rw [if_neg hr] at hMf ⊢
      rw [propagatePass_unchanged g fns m (by simpa using hr)] at hMf ⊢
      exact propagatePass_fix g fns m (by simpa using hr) f hf hMf p hpar

/-- Invariant: every source function with a direct context parameter is
bound to it. -/
def DirectInv (g : Graph n) (isCtx : GoType → Bool) (srcFuncs : List FuncId)
    (m : FuncId → Option String) : Prop :=
  ∀ x ∈ srcFuncs, (findContextInParams (g.func x) isCtx).isSome →
    m x = findContextInParams (g.func x) isCtx

/-- Invariant: every binding in the map agrees with the claim's
nearest-enclosing characterization. -/
def NearestInv (g : Graph n) (isCtx : GoType → Bool)
    (m : FuncId → Option String) : Prop :=
  ∀ x s, m x = some s → nearestCtxBinding g isCtx x = some s

theorem propagatePass_inv (g : Graph n) (isCtx : GoType → Bool)
    (srcFuncs : List FuncId)
    (hord : ∀ f ∈ srcFuncs, ∀ p, (g.func f).parent = some p →
      p < f ∧ p ∈ srcFuncs)
    (l : List FuncId) :
    ∀ (m : FuncId → Option String) (c : Bool), (∀ x ∈ l, x ∈ srcFuncs) →
      DirectInv g isCtx srcFuncs m → NearestInv g isCtx m →
      DirectInv g isCtx srcFuncs (propagatePass g l m c).1 ∧
        NearestInv g isCtx (propagatePass g l m c).1 := by
  induction l with
  | nil => intro m c _ h1 h2; exact ⟨h1, h2⟩
  | cons f rest ih =>
    intro m c hl h1 h2
    have hrest : ∀ x ∈ rest, x ∈ srcFuncs :=
      fun x hx => hl x (List.mem_cons_of_mem _ hx)
    cases hmf : m f with
    | some v =>
      simp only [propagatePass, hmf]
      exact ih m c hrest h1 h2
    | none =>
      cases hpar : (g.func f).parent with
      | none =>
        simp only [propagatePass, hmf, hpar]
        exact ih m c hrest h1 h2
      | some p =>
        cases hmp : m p with
        | none =>
          simp only [propagatePass, hmf, hpar, hmp]
          exact ih m c hrest h1 h2
        | some info =>
          simp only [propagatePass, hmf, hpar, hmp]
          have hfsrc : f ∈ srcFuncs := hl f (List.mem_cons_self _ _)
          have hNfc : findContextInParams (g.func f) isCtx = none := by
            cases hc : findContextInParams (g.func f) isCtx with
            | none => rfl
            | some nm =>
              have hx := h1 f hfsrc (by rw [hc]; rfl)
              rw [hmf, hc] at hx
              cases hx
          obtain ⟨hplt, _⟩ := hord f hfsrc p hpar
          apply ih _ true hrest
          · intro x hx hsome
            have hx' := h1 x hx hsome
            have hxf : x ≠ f := by
              intro he
              rw [he, hNfc] at hsome
              cases hsome
            simpa [hxf] using hx'
          · intro y s hy
            by_cases hyf : y = f
            · subst hyf
              simp only [if_pos rfl, Option.some.injEq] at hy
              have hnp := h2 p info hmp
              rw [nearestCtxBinding.eq_def]
              rw [← hy]
              simp [hNfc, hpar, hplt, hnp]
            · simp only [if_neg hyf] at hy
              exact h2 y s hy

theorem propagateLoop_inv (g : Graph n) (isCtx : GoType → Bool)
    (srcFuncs : List FuncId)
    (hord : ∀ f ∈ srcFuncs, ∀ p, (g.func f).parent = some p →
      p < f ∧ p ∈ srcFuncs) :
    ∀ (N : Nat) (m : FuncId → Option String),
      unboundCount srcFuncs m ≤ N →
      DirectInv g isCtx srcFuncs m → NearestInv g isCtx m →
      DirectInv g isCtx srcFuncs (propagateLoop g srcFuncs m) ∧
        NearestInv g isCtx (propagateLoop g srcFuncs m) := by
  intro N
  induction N with
  | zero =>
    intro m hle h1 h2
    rw [propagateLoop_eq]
    by_cases hr : (propagatePass g srcFuncs m false).2 = true
    · exfalso
      rcases (propagatePass_count g srcFuncs srcFuncs m false
        fun a ha => ha).2 hr with hc | hlt
      · cases hc
      · omega
    · rw [if_neg hr]
      exact propagatePass_inv g isCtx srcFuncs hord srcFuncs m false
        (fun a ha => ha) h1 h2
  | succ N IH =>
    intro m hle h1 h2
    rw [propagateLoop_eq]
    by_cases hr : (propagatePass g srcFuncs m false).2 = true
    · rw [if_pos hr]
      rcases (propagatePass_count g srcFuncs srcFuncs m false
        fun a ha => ha).2 hr with hc | hlt
      · cases hc
      · obtain ⟨h1', h2'⟩ := propagatePass_inv g isCtx srcFuncs hord
          srcFuncs m false (fun a ha => ha) h1 h2
        exact IH _ (by omega) h1' h2'
    · rw [if_neg hr]
      exact propagatePass_inv g isCtx srcFuncs hord srcFuncs m false
        (fun a ha => ha) h1 h2

/-- C7: after the two-pass ambient-binding construction reaches its fixed
point, every source function's binding equals the claim's characterization
`nearestCtxBinding`: a function with its own context parameter is bound to
the name of its first such parameter (never overwritten by a parent), a
nested function without one inherits the binding of its nearest enclosing
bound function at arbitrary depth, and a function is bound iff it or some
transitively enclosing function declares a context parameter.  The
hypothesis states that the parent relation is well-formed: parents are
earlier source functions. -/
theorem buildFunctionContextMap_nearest (g : Graph n)
    (isCtx : GoType → Bool) (srcFuncs : List FuncId)
    (hord : ∀ f ∈ srcFuncs, ∀ p, (g.func f).parent = some p →
      p < f ∧ p ∈ srcFuncs)
    (f : FuncId) (hf : f ∈ srcFuncs) :
    buildFunctionContextMap g isCtx srcFuncs f =
      nearestCtxBinding g isCtx f := by
  have hm1 : ∀ x ∈ srcFuncs,
      directPass g isCtx srcFuncs (fun _ => none) x =
        findContextInParams (g.func x) isCtx :=
    directPass_mem g isCtx srcFuncs _ fun y => Or.inl rfl
  have hInv1 : DirectInv g isCtx srcFuncs
      (directPass g isCtx srcFuncs fun _ => none) :=
    fun x hx _ => hm1 x hx
  have hInv2 : NearestInv g isCtx
      (directPass g isCtx srcFuncs fun _ => none) := by
    intro x s hx
    by_cases hmem : x ∈ srcFuncs
    · rw [hm1 x hmem] at hx
      rw [nearestCtxBinding.eq_def]
      simp [hx]
    · rw [directPass_frame g isCtx srcFuncs _ x hmem] at hx
      cases hx
  obtain ⟨HI1, HI2⟩ := propagateLoop_inv g isCtx srcFuncs hord
    (unboundCount srcFuncs (directPass g isCtx srcFuncs fun _ => none))
    (directPass g isCtx srcFuncs fun _ => none) le_rfl hInv1 hInv2
  show propagateLoop g srcFuncs (directPass g isCtx srcFuncs fun _ => none) f
    = nearestCtxBinding g isCtx f
  clear hInv1 hInv2
  induction f using Nat.strong_induction_on with
  | _ f IH =>
    cases hNc : findContextInParams (g.func f) isCtx with
    | some nm =>
      have hMf : propagateLoop g srcFuncs
          (directPass g isCtx srcFuncs fun _ => none) f = some nm :=
        propagateLoop_mono g srcFuncs _ _ le_rfl f nm
          ((hm1 f hf).trans hNc)
      rw [hMf, nearestCtxBinding.eq_def]
      simp [hNc]
    | none =>
      cases hpar : (g.func f).parent with
      | none =>
        have hnone : nearestCtxBinding g isCtx f = none := by
          rw [nearestCtxBinding.eq_def]
          simp [hNc, hpar]
        rw [hnone]
        cases hMf : propagateLoop g srcFuncs
            (directPass g isCtx srcFuncs fun _ => none) f with
        | none => rfl
        | some s =>
          have h2 := HI2 f s hMf
          rw [hnone] at h2
          cases h2
      | some p =>
        obtain ⟨hplt, hpmem⟩ := hord f hf p hpar
        have hnear : nearestCtxBinding g isCtx f =
            nearestCtxBinding g isCtx p := by
          conv_lhs => rw [nearestCtxBinding.eq_def]
          simp [hNc, hpar, hplt]
        have hIHp := IH p hplt hpmem
        rw [hnear]
        cases hnp : nearestCtxBinding g isCtx p with
        | some s =>
          have hMp : propagateLoop g srcFuncs
              (directPass g isCtx srcFuncs fun _ => none) p = some s := by
            rw [hIHp, hnp]
          cases hMf : propagateLoop g srcFuncs
              (directPass g isCtx srcFuncs fun _ => none) f with
          | none =>
            exfalso
            have hfix := propagateLoop_fix g srcFuncs _ _ le_rfl f hf hMf
              p hpar
            rw [hfix] at hMp
            cases hMp
          | some s2 =>
            have h2 := HI2 f s2 hMf
            rw [hnear, hnp] at h2
            injection h2 with h2
            rw [h2]
        | none =>
          cases hMf : propagateLoop g srcFuncs
              (directPass g isCtx srcFuncs fun _ => none) f with
          | none => rfl
          | some s2 =>
            have h2 := HI2 f s2 hMf
            rw [hnear, hnp] at h2
            cases h2

/-- A three-function program for the C7 witness: function 0 has a
`context.Context` parameter named `ctx`; function 1 is nested in 0 and
function 2 in 1, neither with its own context parameter. -/
def gC7 : Graph 1 where
  node := fun _ => .other
  func := fun f =>
    match f with
    | 0 => { params := [("ctx", GoType.named "context" "Context")] }
    | 1 => { parent := some 0 }
    | 2 => { parent := some 1 }
    | _ => {}

theorem buildFunctionContextMap_nearest_witness :
    (∀ f ∈ [0, 1, 2], ∀ p, (gC7.func f).parent = some p →
      p < f ∧ p ∈ [0, 1, 2])
    ∧ (2 : FuncId) ∈ [0, 1, 2]
    ∧ buildFunctionContextMap gC7 IsContextType [0, 1, 2] 2 =
        nearestCtxBinding gC7 IsContextType 2 := by
  have hord : ∀ f ∈ [0, 1, 2], ∀ p, (gC7.func f).parent = some p →
      p < f ∧ p ∈ [0, 1, 2] := by
    intro f hf p hp
    fin_cases hf
    · rw [show (gC7.func 0).parent = none from rfl] at hp
      cases hp
    · rw [show (gC7.func 1).parent = some 0 from rfl] at hp
      injection hp with hp
      subst hp
      exact ⟨by decide, by decide⟩
    · rw [show (gC7.func 2).parent = some 1 from rfl] at hp
      injection hp with hp
      subst hp
      exact ⟨by decide, by decide⟩
  exact ⟨hord, by decide,
    buildFunctionContextMap_nearest gC7 IsContextType [0, 1, 2] hord 2
      (by decide)⟩

end ZLC
